import Mathlib

/-!
Verification of the SLA aggregator (`sla/counter.py`).

The aggregator keeps the last-seen raw counter totals and a bounded FIFO
window of interval success ratios.  Counter values are modelled as exact
rationals; absent metrics are `Option.none`.  Every definition below is a
direct transcription of the corresponding Python function.
-/

/-- Aggregator state: `SLAClient.__init__` fields.  `window_size` is the
configured capacity `W` (`Config.WINDOW_SIZE`, the `maxlen` of the deque). -/
structure SLAClient where
  prev_success : Option ℚ
  prev_fail : Option ℚ
  window : List ℚ
  window_size : ℕ
deriving DecidableEq, Repr

/-- `SLAClient.__init__`: absent previous totals, empty window, capacity `w`. -/
def initClient (w : ℕ) : SLAClient := ⟨none, none, [], w⟩

/-- `SLAClient._calc_delta`: delta of a counter between two scrapes, with the
counter-reset heuristic (`delta < 0` means reset: use `current` itself) and a
final clamp of any residual negative delta to `0`. -/
def calc_delta (current : Option ℚ) (previous : Option ℚ) : ℚ :=
  let delta : ℚ :=
    match previous with
    | none =>
      match current with
      | some c => c
      | none => 0
    | some p =>
      match current with
      | none => 0
      | some c =>
        let d := c - p
        if d < 0 then c else d
  if delta < 0 then 0 else delta

/-- `SLAClient.compute_sla_interval`: returns the interval ratio (or `none`)
together with the updated state.  Mirrors the Python control flow: early
return when both inputs are `None`, substitution of missing totals by `0.0`,
unconditional update of the previous totals, `None` on a non-positive total
delta, and defensive clamping of the ratio to `[0, 1]`. -/
def compute_sla_interval (st : SLAClient) (success_total fail_total : Option ℚ) :
    Option ℚ × SLAClient :=
  match success_total, fail_total with
  | none, none => (none, st)
  | _, _ =>
    let success_val := success_total.getD 0
    let fail_val := fail_total.getD 0
    let delta_success := calc_delta (some success_val) st.prev_success
    let delta_fail := calc_delta (some fail_val) st.prev_fail
    let st' : SLAClient :=
      { st with prev_success := some success_val, prev_fail := some fail_val }
    let delta_total := delta_success + delta_fail
    if delta_total ≤ 0 then (none, st')
    else
      let ratio0 := delta_success / delta_total
      let ratio1 := if ratio0 < 0 then 0 else ratio0
      let ratio2 := if ratio1 > 1 then 1 else ratio1
      (some ratio2, st')

/-- `SLAClient.add_to_window`: `deque.append` with `maxlen = window_size`
(FIFO eviction of the oldest entry when full). -/
def add_to_window (st : SLAClient) (sla_ratio : ℚ) : SLAClient :=
  let w := st.window ++ [sla_ratio]
  { st with window := if st.window_size < w.length then w.drop (w.length - st.window_size) else w }

/-- `SLAClient.compute_window_sla`: arithmetic mean of the window, `none`
when the window is empty. -/
def compute_window_sla (st : SLAClient) : Option ℚ :=
  if st.window = [] then none
  else some (st.window.sum / (st.window.length : ℚ))

/-- One iteration of the `main` loop restricted to aggregator state: compute
the interval ratio and append it to the window when it is not `None`. -/
def loop_step (st : SLAClient) (i : Option ℚ × Option ℚ) : SLAClient :=
  match compute_sla_interval st i.1 i.2 with
  | (none, st1) => st1
  | (some r, st1) => add_to_window st1 r

/-- The `main` loop over a finite list of fetched counter pairs. -/
def run_loop (st : SLAClient) : List (Option ℚ × Option ℚ) → SLAClient
  | [] => st
  | i :: rest => run_loop (loop_step st i) rest

/-! ### The metric parser (`parse_metric_value`) and the fetcher

The Python function matches the regular expression
`^<name>(?:\x7b[^\x7d]*\x7d)?\s+([0-9.eE+\-]+)\s*$` with `re.MULTILINE`
against the response body and converts the first captured group with
`float(...)`.  The matcher below transcribes exactly that regex semantics
over lists of characters: anchored at line starts (`^`), an optional label
block in braces whose interior is any run of non-closing-brace characters,
then whitespace, the numeric character class, and `$` before a newline or at
the end of the text.  Since none of the quantified character classes
overlap, the greedy regex is deterministic and needs no backtracking. -/

/-- Opening brace character. -/
def lbrace : Char := Char.ofNat 123

/-- Closing brace character. -/
def rbrace : Char := Char.ofNat 125

/-- Python `\s` on ASCII text: space, tab, newline, carriage return,
vertical tab, form feed. -/
def isWs (c : Char) : Bool :=
  c == ' ' || c == '\t' || c == '\n' || c == '\r' || c == Char.ofNat 11 || c == Char.ofNat 12

/-- The captured character class `[0-9.eE+\-]`. -/
def isNumChar (c : Char) : Bool :=
  c.isDigit || c == '.' || c == 'e' || c == 'E' || c == '+' || c == '-'

/-- Match a literal (the `re.escape`d metric name) as a prefix, returning the
remainder. -/
def dropLiteral : List Char → List Char → Option (List Char)
  | [], cs => some cs
  | _ :: _, [] => none
  | n :: ns, c :: cs => if c = n then dropLiteral ns cs else none

/-- Match `\s+([0-9.eE+\-]+)\s*$` and return the captured group.  `$` under
`re.MULTILINE` matches at the end of the text or just before a newline, so
after the group we skip non-newline whitespace and require end-of-text or a
newline. -/
def matchNumTail (cs : List Char) : Option (List Char) :=
  match cs with
  | [] => none
  | c :: _ =>
    if isWs c then
      let r1 := cs.dropWhile isWs
      let g := r1.takeWhile isNumChar
      if g = [] then none
      else
        let r2 := r1.dropWhile isNumChar
        let r3 := r2.dropWhile (fun d => isWs d && !(d == '\n'))
        match r3 with
        | [] => some g
        | d :: _ => if d = '\n' then some g else none
    else none

/-- Attempt the whole pattern at the current position (which the caller
guarantees is a line start), returning the captured numeric field. -/
def tryMatchAt (name cs : List Char) : Option (List Char) :=
  match dropLiteral name cs with
  | none => none
  | some r =>
    match r with
    | c :: t =>
      if c = lbrace then
        match t.dropWhile (fun d => !(d == rbrace)) with
        | [] => none
        | _ :: u2 => matchNumTail u2
      else matchNumTail r
    | [] => matchNumTail r

/-- `re.search` for the anchored pattern: scan the text left to right and try
the pattern at every line start (position 0 and every position following a
newline, including the end of the text). -/
def searchAux (name : List Char) : List Char → Bool → Option (List Char)
  | [], atStart => if atStart then tryMatchAt name [] else none
  | c :: t, atStart =>
    if atStart then
      match tryMatchAt name (c :: t) with
      | some g => some g
      | none => searchAux name t (c == '\n')
    else searchAux name t (c == '\n')

/-- Accumulate decimal digits. -/
def digitsToNat (cs : List Char) : ℕ :=
  cs.foldl (fun a c => 10 * a + (c.toNat - 48)) 0

/-- Python `float(s)` restricted to the characters `[0-9.eE+\-]` that the
capture can produce: optional sign, an integer and/or fractional digit part
(at least one digit), and an optional exponent with mandatory digits; any
trailing garbage makes the conversion raise `ValueError`, modelled as
`none`. -/
def pyFloat (cs : List Char) : Option ℚ :=
  let sgn := match cs with
    | '-' :: t => (true, t)
    | '+' :: t => (false, t)
    | _ => (false, cs)
  let neg := sgn.1
  let cs1 := sgn.2
  let ip := cs1.takeWhile Char.isDigit
  let cs2 := cs1.dropWhile Char.isDigit
  let frac := match cs2 with
    | '.' :: t => (t.takeWhile Char.isDigit, t.dropWhile Char.isDigit)
    | _ => ([], cs2)
  let fp := frac.1
  let cs3 := frac.2
  if ip = [] ∧ fp = [] then none
  else
    let mant : ℚ := (digitsToNat ip : ℚ) + (digitsToNat fp : ℚ) / ((10 : ℚ) ^ fp.length)
    let signed : ℚ := if neg then -mant else mant
    match cs3 with
    | [] => some signed
    | c :: t =>
      if c = 'e' ∨ c = 'E' then
        let esgn := match t with
          | '-' :: u => (true, u)
          | '+' :: u => (false, u)
          | _ => (false, t)
        let ed := esgn.2.takeWhile Char.isDigit
        let t2 := esgn.2.dropWhile Char.isDigit
        if ed = [] ∨ t2 ≠ [] then none
        else
          let e : ℤ := if esgn.1 then -(digitsToNat ed : ℤ) else (digitsToNat ed : ℤ)
          some (signed * (10 : ℚ) ^ e)
      else none

/-- `parse_metric_value(metrics_text, metric_name)`: first anchored regex
match, converted with `float`; `None` when there is no match or the captured
field does not convert. -/
def parse_metric_value (metrics_text : List Char) (metric_name : List Char) : Option ℚ :=
  match searchAux metric_name metrics_text true with
  | none => none
  | some g => pyFloat g

/-- Modelled from the spec: the tail of a single well-formed sample line
after the metric name and optional label block — whitespace, a numeric
field, then only whitespace up to the end of the line. -/
def lineNumTail (cs : List Char) : Option (List Char) :=
  match cs with
  | [] => none
  | c :: _ =>
    if isWs c then
      let r1 := cs.dropWhile isWs
      let g := r1.takeWhile isNumChar
      if g = [] then none
      else if (r1.dropWhile isNumChar).all isWs then some g else none
    else none

/-- Modelled from the spec: a line "whose metric name (ignoring any trailing
label block in braces) matches the configured name", returning its "trailing
numeric field". -/
def matchLine (name line : List Char) : Option (List Char) :=
  match dropLiteral name line with
  | none => none
  | some r =>
    match r with
    | c :: t =>
      if c = lbrace then
        match t.dropWhile (fun d => !(d == rbrace)) with
        | [] => none
        | _ :: u2 => lineNumTail u2
      else lineNumTail r
    | [] => none

/-- Modelled from the spec: "locates the first line whose metric name ...
matches the configured name and returns the trailing numeric field parsed as
a floating-point value; if no such line exists it returns None". -/
def parseMetricValueLines (lines : List (List Char)) (name : List Char) : Option ℚ :=
  match lines.findSome? (fun line => matchLine name line) with
  | none => none
  | some g => pyFloat g

/-- Split a text into its lines at newline characters (Python
`str.split("\n")` semantics). -/
def splitLines : List Char → List (List Char)
  | [] => [[]]
  | c :: t =>
    if c = '\n' then [] :: splitLines t
    else
      match splitLines t with
      | [] => [[c]]
      | l :: ls => (c :: l) :: ls

/-- Join lines with newline separators (inverse of `splitLines`). -/
def joinLines : List (List Char) → List Char
  | [] => []
  | [l] => l
  | l :: ls => l ++ '\n' :: joinLines ls

/-- A line on which the anchored regex match can spill over onto the
following lines: the metric name matches at the line start but what follows
on this line is only whitespace, or an unclosed label block, or a label
block followed only by whitespace.  On such a line `\s+` (or `[^\x7d]*`) can
absorb the terminating newline and the numeric field can come from a later
line. -/
def badLine (name line : List Char) : Bool :=
  match dropLiteral name line with
  | none => false
  | some r =>
    r.all isWs ||
    (match r with
     | c :: t =>
       if c = lbrace then
         match t.dropWhile (fun d => !(d == rbrace)) with
         | [] => true
         | _ :: u2 => u2.all isWs
       else false
     | [] => false)

/-- Outcome of the `requests.get` call in `fetch_prober_metrics`: either a
response with a status code and a body, or a transport error
(`requests.RequestException`: timeout, connection failure, DNS, ...). -/
inductive FetchOutcome where
  | ok : ℕ → List Char → FetchOutcome
  | err : FetchOutcome
deriving DecidableEq

/-- Transport-level failure as classified by the code: a raised
`RequestException` or a non-200 status. -/
def transportFailed : FetchOutcome → Bool
  | .err => true
  | .ok status _ => !(status == 200)

/-- `SLAClient.fetch_prober_metrics` given the outcome of the HTTP call and
the measured wall-clock duration: on a transport error or a non-200 status
it returns `(None, None, duration)`; on success it parses the two configured
metric names out of the body; the duration is returned in every path. -/
def fetch_prober_metrics (success_metric fail_metric : List Char)
    (outcome : FetchOutcome) (duration : ℚ) : Option ℚ × Option ℚ × ℚ :=
  match outcome with
  | .err => (none, none, duration)
  | .ok status body =>
    if status = 200 then
      (parse_metric_value body success_metric, parse_metric_value body fail_metric, duration)
    else (none, none, duration)

/-! ### Helper lemmas about the aggregator -/

theorem calc_delta_monotone (c p : ℚ) (h : p ≤ c) :
    calc_delta (some c) (some p) = c - p := by
  simp only [calc_delta]
  rw [if_neg (not_lt.mpr (sub_nonneg.mpr h)), if_neg (not_lt.mpr (sub_nonneg.mpr h))]

theorem compute_sla_interval_state (st : SLAClient) (a b : Option ℚ)
    (h : ¬(a = none ∧ b = none)) :
    (compute_sla_interval st a b).2 =
      { st with prev_success := some (a.getD 0), prev_fail := some (b.getD 0) } := by
  cases a with
  | none =>
    cases b with
    | none => exact absurd ⟨rfl, rfl⟩ h
    | some y => simp only [compute_sla_interval]; split <;> rfl
  | some x =>
    cases b <;> · simp only [compute_sla_interval]; split <;> rfl

theorem compute_sla_interval_window (st : SLAClient) (a b : Option ℚ) :
    (compute_sla_interval st a b).2.window = st.window := by
  by_cases h : a = none ∧ b = none
  · rw [h.1, h.2]; rfl
  · rw [compute_sla_interval_state st a b h]

theorem compute_sla_interval_some_bounds (st : SLAClient) (a b : Option ℚ) (r : ℚ)
    (h : (compute_sla_interval st a b).1 = some r) : 0 ≤ r ∧ r ≤ 1 := by
  cases a with
  | none =>
    cases b with
    | none => simp [compute_sla_interval] at h
    | some y =>
      simp only [compute_sla_interval] at h
      split at h
      · exact absurd h (by simp)
      · rw [Option.some_inj] at h
        subst h
        constructor <;> split_ifs <;> linarith
  | some x =>
    cases b <;>
    · simp only [compute_sla_interval] at h
      split at h
      · exact absurd h (by simp)
      · rw [Option.some_inj] at h
        subst h
        constructor <;> split_ifs <;> linarith

/-! ### Claims C1 - C5, C10 -/

/-- C1 (amended): for non-negative `(prev_s, prev_f, cur_s, cur_f)` with
`cur_s ≥ prev_s`, `cur_f ≥ prev_f` and a positive total delta,
`compute_sla_interval` returns exactly
`(cur_s - prev_s) / ((cur_s - prev_s) + (cur_f - prev_f))`, a value in `[0,1]`
on which the defensive clamps are no-ops. -/
theorem c1_interval_exact_ratio (ps pf cs cf : ℚ) (w : List ℚ) (k : ℕ)
    (hps : 0 ≤ ps) (hpf : 0 ≤ pf) (hcs : ps ≤ cs) (hcf : pf ≤ cf)
    (hpos : 0 < (cs - ps) + (cf - pf)) :
    (compute_sla_interval ⟨some ps, some pf, w, k⟩ (some cs) (some cf)).1
      = some ((cs - ps) / ((cs - ps) + (cf - pf)))
    ∧ 0 ≤ (cs - ps) / ((cs - ps) + (cf - pf))
    ∧ (cs - ps) / ((cs - ps) + (cf - pf)) ≤ 1 := by
  have hq0 : 0 ≤ (cs - ps) / ((cs - ps) + (cf - pf)) :=
    div_nonneg (sub_nonneg.mpr hcs) (le_of_lt hpos)
  have hq1 : (cs - ps) / ((cs - ps) + (cf - pf)) ≤ 1 := by
    rw [div_le_one hpos]; linarith
  refine ⟨?_, hq0, hq1⟩
  simp only [compute_sla_interval, Option.getD_some]
  rw [calc_delta_monotone cs ps hcs, calc_delta_monotone cf pf hcf]
  rw [if_neg (not_le.mpr hpos), if_neg (not_lt.mpr hq0), if_neg (not_lt.mpr hq1)]

/-- C1 counterexample: with `previous = (1,1)` and `current = (1,1)` (all
hypotheses of the claim hold, total delta is `0`) the code returns `None`,
not the clamped ratio the claim promises. -/
theorem c1_counterexample :
    (compute_sla_interval ⟨some 1, some 1, [], 12⟩ (some 1) (some 1)).1 = none
    ∧ (compute_sla_interval ⟨some 1, some 1, [], 12⟩ (some 1) (some 1)).1
        ≠ some (((1:ℚ) - 1) / (((1:ℚ) - 1) + ((1:ℚ) - 1))) := by
  have h1 : (compute_sla_interval ⟨some 1, some 1, [], 12⟩ (some 1) (some 1)).1 = none := by
    simp only [compute_sla_interval, Option.getD_some]
    rw [calc_delta_monotone 1 1 (le_refl _)]
    rw [if_pos (by norm_num : ((1:ℚ) - 1) + ((1:ℚ) - 1) ≤ 0)]
  exact ⟨h1, by rw [h1]; exact fun h => Option.noConfusion h⟩

/-- C1 witness: concrete instance `prev = (0,0)`, `cur = (3,1)`, ratio `3/4`. -/
theorem c1_witness :
    (compute_sla_interval ⟨some 0, some 0, [], 12⟩ (some 3) (some 1)).1
      = some (((3:ℚ) - 0) / (((3:ℚ) - 0) + ((1:ℚ) - 0)))
    ∧ 0 ≤ ((3:ℚ) - 0) / (((3:ℚ) - 0) + ((1:ℚ) - 0))
    ∧ ((3:ℚ) - 0) / (((3:ℚ) - 0) + ((1:ℚ) - 0)) ≤ 1 :=
  c1_interval_exact_ratio 0 0 3 1 [] 12 (by norm_num) (by norm_num) (by norm_num)
    (by norm_num) (by norm_num)

/-- C2: when the previous total is known and the current total is smaller
(a reset), the computed delta is the current value itself, hence
non-negative. -/
theorem c2_counter_reset_delta (c p : ℚ) (h0 : 0 ≤ c) (hlt : c < p) :
    calc_delta (some c) (some p) = c ∧ 0 ≤ calc_delta (some c) (some p) := by
  have hc : calc_delta (some c) (some p) = c := by
    simp only [calc_delta]
    rw [if_pos (by linarith : c - p < 0), if_neg (not_lt.mpr h0)]
  exact ⟨hc, by rw [hc]; exact h0⟩

/-- C2 witness: `previous_success = 100`, `current_success = 5` gives delta `5`. -/
theorem c2_witness :
    calc_delta (some 5) (some 100) = 5 ∧ (0:ℚ) ≤ calc_delta (some 5) (some 100) :=
  c2_counter_reset_delta 5 100 (by norm_num) (by norm_num)

/-- C3: `compute_sla_interval None None` returns `None` and leaves the whole
state (previous totals and window) unchanged; in particular two consecutive
both-absent cycles leave the state unchanged. -/
theorem c3_both_absent_state_unchanged (st : SLAClient) :
    compute_sla_interval st none none = (none, st)
    ∧ (compute_sla_interval (compute_sla_interval st none none).2 none none).2 = st :=
  ⟨rfl, rfl⟩

/-- C4: `compute_sla_interval` never mutates the window, and on a zero total
delta (e.g. `previous = (10,2)`, `current = (10,2)`) it returns `None`. -/
theorem c4_window_frame :
    (∀ (st : SLAClient) (a b : Option ℚ),
        (compute_sla_interval st a b).2.window = st.window)
    ∧ ∀ (w : List ℚ) (k : ℕ),
        (compute_sla_interval ⟨some 10, some 2, w, k⟩ (some 10) (some 2)).1 = none := by
  refine ⟨compute_sla_interval_window, ?_⟩
  intro w k
  simp only [compute_sla_interval, Option.getD_some]
  rw [calc_delta_monotone 10 10 (le_refl _), calc_delta_monotone 2 2 (le_refl _)]
  norm_num

/-- C5: whenever not both inputs are absent, the call stores the just-seen raw
totals (an individually missing total substituted by `0`) in
`prev_success`/`prev_fail`. -/
theorem c5_prev_totals_updated (st : SLAClient) (a b : Option ℚ)
    (h : ¬(a = none ∧ b = none)) :
    (compute_sla_interval st a b).2.prev_success = some (a.getD 0)
    ∧ (compute_sla_interval st a b).2.prev_fail = some (b.getD 0) := by
  rw [compute_sla_interval_state st a b h]
  exact ⟨rfl, rfl⟩

/-- C5 witness: success absent, fail present as `7`: previous totals become
`0` and `7`. -/
theorem c5_witness :
    (compute_sla_interval (initClient 12) none (some 7)).2.prev_success
      = some ((none : Option ℚ).getD 0)
    ∧ (compute_sla_interval (initClient 12) none (some 7)).2.prev_fail
      = some ((some (7:ℚ)).getD 0) :=
  c5_prev_totals_updated (initClient 12) none (some 7) (by simp)

/-- C10: a cycle with an absent success metric overwrites `prev_success` with
`0` (not retained), so if the counter reappears with raw total `s ≥ 0` the
next delta is the full raw total `s`. -/
theorem c10_absent_metric_zeroed (st : SLAClient) (f s : ℚ) (hs : 0 ≤ s) :
    (compute_sla_interval st none (some f)).2.prev_success = some 0
    ∧ calc_delta (some s) ((compute_sla_interval st none (some f)).2.prev_success) = s := by
  have hst := compute_sla_interval_state st none (some f) (by simp)
  rw [hst]
  refine ⟨rfl, ?_⟩
  show calc_delta (some s) (some ((none : Option ℚ).getD 0)) = s
  simp only [Option.getD_none]
  rw [calc_delta_monotone s 0 hs]
  exact sub_zero s

/-- C10 witness: after a cycle with success absent and fail `4`, a reappearing
success total `9` yields delta `9`. -/
theorem c10_witness :
    (compute_sla_interval (initClient 12) none (some 4)).2.prev_success = some 0
    ∧ calc_delta (some 9)
        ((compute_sla_interval (initClient 12) none (some 4)).2.prev_success) = 9 :=
  c10_absent_metric_zeroed (initClient 12) 4 9 (by norm_num)

/-! ### Claims C6 and C7: window invariants and averaging -/

theorem compute_sla_interval_size (st : SLAClient) (a b : Option ℚ) :
    (compute_sla_interval st a b).2.window_size = st.window_size := by
  by_cases h : a = none ∧ b = none
  · rw [h.1, h.2]; rfl
  · rw [compute_sla_interval_state st a b h]

theorem add_to_window_size (st : SLAClient) (r : ℚ) :
    (add_to_window st r).window_size = st.window_size := rfl

theorem add_to_window_inv (st : SLAClient) (r : ℚ)
    (hw : ∀ x ∈ st.window, 0 ≤ x ∧ x ≤ 1) (hr : 0 ≤ r ∧ r ≤ 1)
    (hlen : st.window.length ≤ st.window_size) :
    (∀ x ∈ (add_to_window st r).window, 0 ≤ x ∧ x ≤ 1)
    ∧ (add_to_window st r).window.length ≤ st.window_size := by
  have hmem : ∀ x ∈ st.window ++ [r], 0 ≤ x ∧ x ≤ 1 := by
    intro x hx
    rcases List.mem_append.mp hx with h | h
    · exact hw x h
    · rw [List.mem_singleton.mp h]; exact hr
  simp only [add_to_window]
  split_ifs with hlt
  · refine ⟨fun x hx => hmem x (List.mem_of_mem_drop hx), ?_⟩
    rw [List.length_drop]
    omega
  · refine ⟨hmem, ?_⟩
    simp only [List.length_append, List.length_cons, List.length_nil] at hlt ⊢
    omega

theorem loop_step_inv (st : SLAClient) (i : Option ℚ × Option ℚ)
    (h : (∀ x ∈ st.window, 0 ≤ x ∧ x ≤ 1) ∧ st.window.length ≤ st.window_size) :
    ((∀ x ∈ (loop_step st i).window, 0 ≤ x ∧ x ≤ 1)
      ∧ (loop_step st i).window.length ≤ (loop_step st i).window_size)
    ∧ (loop_step st i).window_size = st.window_size := by
  simp only [loop_step]
  cases hc : compute_sla_interval st i.1 i.2 with
  | mk res st1 =>
    have hw1 : st1.window = st.window := by
      have := compute_sla_interval_window st i.1 i.2
      rw [hc] at this; exact this
    have hs1 : st1.window_size = st.window_size := by
      have := compute_sla_interval_size st i.1 i.2
      rw [hc] at this; exact this
    cases res with
    | none =>
      refine ⟨⟨?_, ?_⟩, hs1⟩
      · rw [hw1]; exact h.1
      · rw [hw1, hs1]; exact h.2
    | some r =>
      have hr : 0 ≤ r ∧ r ≤ 1 := by
        apply compute_sla_interval_some_bounds st i.1 i.2 r
        rw [hc]
      have hinv := add_to_window_inv st1 r
        (by rw [hw1]; exact h.1) hr (by rw [hw1, hs1]; exact h.2)
      refine ⟨⟨hinv.1, ?_⟩, ?_⟩
      · rw [add_to_window_size, hs1]
        rw [hs1] at hinv
        exact hinv.2
      · rw [add_to_window_size, hs1]

theorem run_loop_inv (inputs : List (Option ℚ × Option ℚ)) (st : SLAClient)
    (h : (∀ x ∈ st.window, 0 ≤ x ∧ x ≤ 1) ∧ st.window.length ≤ st.window_size) :
    ((∀ x ∈ (run_loop st inputs).window, 0 ≤ x ∧ x ≤ 1)
      ∧ (run_loop st inputs).window.length ≤ (run_loop st inputs).window_size)
    ∧ (run_loop st inputs).window_size = st.window_size := by
  induction inputs generalizing st with
  | nil => exact ⟨h, rfl⟩
  | cons i rest ih =>
    have hstep := loop_step_inv st i h
    have hrest := ih (loop_step st i) hstep.1
    exact ⟨hrest.1, hrest.2.trans hstep.2⟩

/-- C6: in every state reachable from the initial state by the scrape loop
(compute the interval ratio, append non-`None` results to the window), every
stored ratio lies in `[0,1]` and the window size never exceeds the configured
capacity. -/
theorem c6_window_invariants (k : ℕ) (inputs : List (Option ℚ × Option ℚ)) :
    (∀ x ∈ (run_loop (initClient k) inputs).window, 0 ≤ x ∧ x ≤ 1)
    ∧ (run_loop (initClient k) inputs).window.length ≤ k := by
  have h := run_loop_inv inputs (initClient k)
    (by constructor
        · intro x hx; exact absurd hx (List.not_mem_nil x)
        · exact Nat.zero_le k)
  refine ⟨h.1.1, ?_⟩
  have := h.1.2
  rw [h.2] at this
  exact this

/-- C7: `compute_window_sla` is the arithmetic mean of the window (`none` when
empty), and appending beyond capacity evicts FIFO: with capacity 3, appending
`1, 1/2, 0, 1` leaves exactly `[1/2, 0, 1]` with average `1/2`. -/
theorem c7_window_average_fifo :
    (∀ st : SLAClient, compute_window_sla st =
        if st.window = [] then none else some (st.window.sum / (st.window.length : ℚ)))
    ∧ (add_to_window (add_to_window (add_to_window (add_to_window (initClient 3) 1) (1/2)) 0) 1).window
        = [1/2, 0, 1]
    ∧ compute_window_sla
        (add_to_window (add_to_window (add_to_window (add_to_window (initClient 3) 1) (1/2)) 0) 1)
      = some (1/2) := by
  have h4 : (add_to_window (add_to_window (add_to_window (add_to_window (initClient 3) 1) (1/2)) 0) 1).window
      = [1/2, 0, 1] := by
    simp [add_to_window, initClient]
  refine ⟨fun st => rfl, h4, ?_⟩
  simp only [compute_window_sla, h4]
  rw [if_neg (List.cons_ne_nil _ _)]
  norm_num

/-! ### Claims C8 and C9: fetcher and parser -/

theorem takeWhile_append_break (p : Char → Bool) (x b : List Char)
    (hb : b = [] ∨ ∃ c r, b = c :: r ∧ p c = false) :
    (x ++ b).takeWhile p = x.takeWhile p := by
  induction x with
  | nil =>
    rcases hb with rfl | ⟨c, r, rfl, hc⟩
    · rfl
    · simp [List.takeWhile_cons, hc]
  | cons a x ih =>
    rw [List.cons_append, List.takeWhile_cons, List.takeWhile_cons]
    cases hpa : p a
    · rfl
    · rw [ih]

theorem dropWhile_append_break (p : Char → Bool) (x b : List Char)
    (hb : b = [] ∨ ∃ c r, b = c :: r ∧ p c = false) :
    (x ++ b).dropWhile p = x.dropWhile p ++ b := by
  induction x with
  | nil =>
    rcases hb with rfl | ⟨c, r, rfl, hc⟩
    · rfl
    · simp [List.dropWhile_cons, hc]
  | cons a x ih =>
    rw [List.cons_append, List.dropWhile_cons, List.dropWhile_cons]
    cases hpa : p a
    · simp
    · simpa using ih

theorem dropWhile_append_stop (p : Char → Bool) (x b : List Char)
    (hx : ∃ c ∈ x, p c = false) :
    (x ++ b).dropWhile p = x.dropWhile p ++ b := by
  induction x with
  | nil =>
    rcases hx with ⟨c, hc, _⟩
    exact absurd hc (List.not_mem_nil c)
  | cons a x ih =>
    rw [List.cons_append, List.dropWhile_cons, List.dropWhile_cons]
    cases hpa : p a
    · simp
    · rcases hx with ⟨c, hc, hpc⟩
      rcases List.mem_cons.mp hc with rfl | hcx
      · rw [hpa] at hpc; exact Bool.noConfusion hpc
      · simpa using ih ⟨c, hcx, hpc⟩

theorem dropWhile_ne_nil_of_stop (p : Char → Bool) (x : List Char)
    (hx : ∃ c ∈ x, p c = false) : x.dropWhile p ≠ [] := by
  intro hnil
  rcases hx with ⟨c, hc, hpc⟩
  have := List.dropWhile_eq_nil_iff.mp hnil c hc
  rw [hpc] at this
  exact Bool.noConfusion this

theorem dropWhile_append_all (p : Char → Bool) (x b : List Char)
    (hx : x.all p = true) : (x ++ b).dropWhile p = b.dropWhile p := by
  induction x with
  | nil => rfl
  | cons a x ih =>
    rw [List.all_cons, Bool.and_eq_true] at hx
    rw [List.cons_append, List.dropWhile_cons, hx.1]
    exact ih hx.2

theorem all_false_exists (p : Char → Bool) (x : List Char)
    (h : x.all p = false) : ∃ c ∈ x, p c = false := by
  by_contra hcon
  push_neg at hcon
  have : x.all p = true := List.all_eq_true.mpr (fun c hc => by
    cases hpc : p c
    · exact absurd hpc (hcon c hc)
    · rfl)
  rw [this] at h
  exact Bool.noConfusion h

theorem dropLiteral_append_some (name : List Char) (x b r : List Char)
    (h : dropLiteral name x = some r) : dropLiteral name (x ++ b) = some (r ++ b) := by
  induction name generalizing x with
  | nil =>
    simp only [dropLiteral, Option.some_inj] at h
    rw [h]
    rfl
  | cons n ns ih =>
    cases x with
    | nil => exact absurd h (by simp [dropLiteral])
    | cons c t =>
      rw [List.cons_append]
      simp only [dropLiteral] at h ⊢
      by_cases hc : c = n
      · rw [if_pos hc] at h ⊢
        exact ih t h
      · rw [if_neg hc] at h
        exact absurd h (by simp)

theorem dropLiteral_append_none (name : List Char) (x b : List Char)
    (hb : b = [] ∨ ∃ r, b = '\n' :: r) :
    '\n' ∉ name → dropLiteral name x = none → dropLiteral name (x ++ b) = none := by
  induction name generalizing x with
  | nil =>
    intro _ h
    exact absurd h (by simp [dropLiteral])
  | cons n ns ih =>
    intro hn h
    cases x with
    | nil =>
      rcases hb with rfl | ⟨r, rfl⟩
      · exact h
      · simp only [List.nil_append, dropLiteral]
        rw [if_neg (fun hh : '\n' = n => hn (by rw [hh]; exact List.mem_cons_self n ns))]
    | cons c t =>
      rw [List.cons_append]
      simp only [dropLiteral] at h ⊢
      by_cases hc : c = n
      · rw [if_pos hc] at h ⊢
        exact ih t (fun hm => hn (List.mem_cons_of_mem n hm)) h
      · rw [if_neg hc]

theorem dropLiteral_mem (name : List Char) (x r : List Char)
    (h : dropLiteral name x = some r) : ∀ c ∈ r, c ∈ x := by
  induction name generalizing x with
  | nil =>
    simp only [dropLiteral, Option.some_inj] at h
    rw [← h]
    exact fun c hc => hc
  | cons n ns ih =>
    cases x with
    | nil => exact absurd h (by simp [dropLiteral])
    | cons a t =>
      simp only [dropLiteral] at h
      by_cases hc : a = n
      · rw [if_pos hc] at h
        exact fun c hcr => List.mem_cons_of_mem a (ih t h c hcr)
      · rw [if_neg hc] at h
        exact absurd h (by simp)

theorem matchNumTail_line (s b : List Char) (hs : '\n' ∉ s)
    (hall : s.all isWs = false) (hb : b = [] ∨ ∃ r, b = '\n' :: r) :
    matchNumTail (s ++ b) = lineNumTail s := by
  cases s with
  | nil => rw [List.all_nil] at hall; exact Bool.noConfusion hall
  | cons c s' =>
    have hbreakNum : b = [] ∨ ∃ d r, b = d :: r ∧ isNumChar d = false := by
      rcases hb with rfl | ⟨r, rfl⟩
      · exact Or.inl rfl
      · exact Or.inr ⟨'\n', r, rfl, by decide⟩
    rw [List.cons_append]
    simp only [matchNumTail, lineNumTail]
    cases hwc : isWs c with
    | false => simp
    | true =>
      rw [if_pos rfl, if_pos rfl]
      have hex : ∃ d ∈ c :: s', isWs d = false := all_false_exists isWs (c :: s') hall
      have h1 := dropWhile_append_stop isWs (c :: s') b hex
      rw [List.cons_append] at h1
      rw [h1]
      rw [takeWhile_append_break isNumChar _ b hbreakNum]
      by_cases hg : (((c :: s').dropWhile isWs).takeWhile isNumChar) = []
      · rw [if_pos hg, if_pos hg]
      · rw [if_neg hg, if_neg hg]
        rw [dropWhile_append_break isNumChar _ b hbreakNum]
        have hr2mem : ∀ d ∈ ((c :: s').dropWhile isWs).dropWhile isNumChar, d ∈ c :: s' :=
          fun d hd => List.dropWhile_subset isWs (List.dropWhile_subset isNumChar hd)
        cases hall2 : (((c :: s').dropWhile isWs).dropWhile isNumChar).all isWs with
        | true =>
          rw [if_pos rfl]
          have hr2nl : ∀ d ∈ ((c :: s').dropWhile isWs).dropWhile isNumChar,
              (isWs d && !(d == '\n')) = true := by
            intro d hd
            have hwd := List.all_eq_true.mp hall2 d hd
            have hdn : d ≠ '\n' := fun he => hs (he ▸ hr2mem d hd)
            rw [hwd]
            simp [hdn]
          have hall3 := List.all_eq_true.mpr hr2nl
          rw [dropWhile_append_all _ _ b hall3]
          rcases hb with rfl | ⟨r, rfl⟩
          · rfl
          · rw [List.dropWhile_cons]
            rw [if_neg (by decide : ¬((isWs '\n' && !('\n' == '\n')) = true))]
            simp
        | false =>
          rw [if_neg (fun h : (false = true) => Bool.noConfusion h)]
          rcases all_false_exists isWs _ hall2 with ⟨d, hd, hpd⟩
          have hstop : ∃ e ∈ ((c :: s').dropWhile isWs).dropWhile isNumChar,
              (isWs e && !(e == '\n')) = false := ⟨d, hd, by rw [hpd]; rfl⟩
          rw [dropWhile_append_stop _ _ b hstop]
          cases hr3 : (((c :: s').dropWhile isWs).dropWhile isNumChar).dropWhile
              (fun e => isWs e && !(e == '\n')) with
          | nil => exact absurd hr3 (dropWhile_ne_nil_of_stop _ _ hstop)
          | cons h0 t0 =>
            rw [List.cons_append]
            have hmem0 : h0 ∈ ((c :: s').dropWhile isWs).dropWhile isNumChar := by
              have : h0 ∈ h0 :: t0 := List.mem_cons_self h0 t0
              rw [← hr3] at this
              exact List.dropWhile_subset _ this
            have hh0 : ¬(h0 = '\n') := fun he => hs (he ▸ hr2mem h0 hmem0)
            simp [hh0]

theorem tryMatchAt_line (name l b : List Char) (hn : '\n' ∉ name) (hl : '\n' ∉ l)
    (hb : b = [] ∨ ∃ r, b = '\n' :: r) (hbad : badLine name l = false) :
    tryMatchAt name (l ++ b) = matchLine name l := by
  cases hdl : dropLiteral name l with
  | none =>
    have h2 := dropLiteral_append_none name l b hb hn hdl
    simp only [tryMatchAt, matchLine, hdl, h2]
  | some r =>
    have h2 := dropLiteral_append_some name l b r hdl
    have hrn : '\n' ∉ r := fun hm => hl (dropLiteral_mem name l r hdl _ hm)
    simp only [tryMatchAt, matchLine, hdl, h2]
    cases r with
    | nil => simp [badLine, hdl] at hbad
    | cons c t =>
      simp only [badLine, hdl] at hbad
      rw [Bool.or_eq_false_iff] at hbad
      obtain ⟨hall, hblock⟩ := hbad
      simp only [List.cons_append]
      by_cases hcb : c = lbrace
      · rw [if_pos hcb, if_pos hcb]
        rw [if_pos hcb] at hblock
        cases hdw : t.dropWhile (fun d => !(d == rbrace)) with
        | nil =>
          rw [hdw] at hblock
          simp at hblock
        | cons d u2 =>
          rw [hdw] at hblock
          simp only [] at hblock
          have hdr : (!(d == rbrace)) = false := by
            have hgen : ∀ (x : List Char),
                x.dropWhile (fun e => !(e == rbrace)) = d :: u2 → (!(d == rbrace)) = false := by
              intro x
              induction x with
              | nil => intro h; exact absurd h (by simp)
              | cons a x ih =>
                intro h
                rw [List.dropWhile_cons] at h
                by_cases ha : (!(a == rbrace)) = true
                · rw [if_pos ha] at h; exact ih h
                · rw [if_neg ha] at h
                  injection h with h1 _
                  rw [← h1]
                  cases hav : (!(a == rbrace)) with
                  | false => rfl
                  | true => exact absurd hav ha
            exact hgen t hdw
          have hdm : d ∈ t := List.dropWhile_subset _ (hdw ▸ List.mem_cons_self d u2)
          have hstop : ∃ e ∈ t, (!(e == rbrace)) = false := ⟨d, hdm, hdr⟩
          have h3 := dropWhile_append_stop _ t b hstop
          rw [hdw] at h3
          rw [h3, List.cons_append]
          have hu2n : '\n' ∉ u2 := fun hm => hl
            (dropLiteral_mem name l (c :: t) hdl _
              (List.mem_cons_of_mem c
                (List.dropWhile_subset _ (hdw ▸ List.mem_cons_of_mem d hm))))
          simpa using matchNumTail_line u2 b hu2n hblock hb
      · rw [if_neg hcb, if_neg hcb]
        have hres := matchNumTail_line (c :: t) b hrn hall hb
        rw [List.cons_append] at hres
        exact hres

theorem tryMatchAt_nil (name : List Char) : tryMatchAt name [] = none := by
  cases name with
  | nil => rfl
  | cons n ns => rfl

theorem searchAux_no_nl_false (name x : List Char) (hx : '\n' ∉ x) :
    searchAux name x false = none := by
  induction x with
  | nil => rfl
  | cons c t ih =>
    simp only [searchAux]
    rw [if_neg (fun h : false = true => Bool.noConfusion h)]
    have hc : c ≠ '\n' := fun he => hx (by rw [he]; exact List.mem_cons_self '\n' t)
    have hcb : (c == '\n') = false := by simp [hc]
    rw [hcb]
    exact ih (fun hm => hx (List.mem_cons_of_mem c hm))

theorem searchAux_false_append (name x rest : List Char) (hx : '\n' ∉ x) :
    searchAux name (x ++ '\n' :: rest) false = searchAux name rest true := by
  induction x with
  | nil =>
    rw [List.nil_append]
    simp only [searchAux]
    rw [if_neg (fun h : false = true => Bool.noConfusion h)]
    rw [show ('\n' == '\n') = true from rfl]
  | cons c t ih =>
    rw [List.cons_append]
    simp only [searchAux]
    rw [if_neg (fun h : false = true => Bool.noConfusion h)]
    have hc : c ≠ '\n' := fun he => hx (by rw [he]; exact List.mem_cons_self '\n' t)
    have hcb : (c == '\n') = false := by simp [hc]
    rw [hcb]
    exact ih (fun hm => hx (List.mem_cons_of_mem c hm))

theorem searchAux_true_line (name l : List Char) (hl : '\n' ∉ l) :
    searchAux name l true = tryMatchAt name l := by
  cases l with
  | nil => rfl
  | cons c t =>
    simp only [searchAux]
    rw [if_pos trivial]
    cases hm : tryMatchAt name (c :: t) with
    | some g => rfl
    | none =>
      have hc : c ≠ '\n' := fun he => hl (by rw [he]; exact List.mem_cons_self '\n' t)
      have hcb : (c == '\n') = false := by simp [hc]
      rw [hcb]
      exact searchAux_no_nl_false name t (fun hm2 => hl (List.mem_cons_of_mem c hm2))

theorem searchAux_true_append (name l rest : List Char) (hl : '\n' ∉ l) :
    searchAux name (l ++ '\n' :: rest) true =
      match tryMatchAt name (l ++ '\n' :: rest) with
      | some g => some g
      | none => searchAux name rest true := by
  cases l with
  | nil =>
    rw [List.nil_append]
    simp only [searchAux]
    rw [if_pos trivial]
    cases hm : tryMatchAt name ('\n' :: rest) with
    | some g => rfl
    | none =>
      show searchAux name rest ('\n' == '\n') = searchAux name rest true
      rw [show ('\n' == '\n') = true from rfl]
  | cons c t =>
    rw [List.cons_append]
    simp only [searchAux]
    rw [if_pos trivial]
    cases hm : tryMatchAt name (c :: (t ++ '\n' :: rest)) with
    | some g => rfl
    | none =>
      have hc : c ≠ '\n' := fun he => hl (by rw [he]; exact List.mem_cons_self '\n' t)
      have hcb : (c == '\n') = false := by simp [hc]
      rw [hcb]
      show searchAux name (t ++ '\n' :: rest) false = searchAux name rest true
      exact searchAux_false_append name t rest (fun hm2 => hl (List.mem_cons_of_mem c hm2))

/-- C9 (amended): `parse_metric_value` realises the spec's line-oriented
description on every text whose lines that start with the metric name are
complete sample lines; in general the anchored match may spill across line
boundaries (the `badLine` cases), because `\s+` and the label block of the
regex can absorb newlines. -/
theorem c9_parse_first_line_refined (name : List Char) (lines : List (List Char))
    (hn : '\n' ∉ name)
    (hl : ∀ l ∈ lines, '\n' ∉ l ∧ badLine name l = false) :
    parse_metric_value (joinLines lines) name = parseMetricValueLines lines name := by
  induction lines with
  | nil =>
    simp [parse_metric_value, parseMetricValueLines, joinLines, searchAux, tryMatchAt_nil]
  | cons l rest ih =>
    have hll := hl l (List.mem_cons_self l rest)
    have hrest : ∀ m ∈ rest, '\n' ∉ m ∧ badLine name m = false :=
      fun m hm => hl m (List.mem_cons_of_mem l hm)
    cases rest with
    | nil =>
      show parse_metric_value (joinLines [l]) name = parseMetricValueLines [l] name
      rw [show joinLines [l] = l from rfl]
      simp only [parse_metric_value, parseMetricValueLines]
      rw [searchAux_true_line name l hll.1]
      have hline := tryMatchAt_line name l [] hn hll.1 (Or.inl rfl) hll.2
      rw [List.append_nil] at hline
      rw [hline]
      cases hml : matchLine name l with
      | some g => simp [List.findSome?_cons, hml]
      | none => simp [List.findSome?_cons, hml]
    | cons m rs =>
      simp only [parse_metric_value, parseMetricValueLines] at ih ⊢
      rw [show joinLines (l :: m :: rs) = l ++ '\n' :: joinLines (m :: rs) from rfl]
      rw [searchAux_true_append name l (joinLines (m :: rs)) hll.1]
      rw [tryMatchAt_line name l ('\n' :: joinLines (m :: rs)) hn hll.1 (Or.inr ⟨_, rfl⟩) hll.2]
      cases hml : matchLine name l with
      | some g => simp [List.findSome?_cons, hml]
      | none =>
        simp only [List.findSome?_cons, hml]
        exact ih hrest

/-- C9 counterexample: on the body consisting of the line `a` followed by the
line `5`, the regex matches across the newline (`\s+` absorbs it) and the
code returns `5.0`, while no single line matches the name with a trailing
numeric field, so the spec's line-oriented description yields `None`. -/
theorem c9_counterexample :
    parse_metric_value ['a', '\n', '5'] ['a'] = some 5
    ∧ parseMetricValueLines (splitLines ['a', '\n', '5']) ['a'] = none := by
  constructor
  · have h1 : searchAux ['a'] ['a', '\n', '5'] true = some ['5'] := rfl
    simp only [parse_metric_value, h1]
    have h2 : pyFloat ['5']
        = some ((digitsToNat ['5'] : ℚ) + (digitsToNat [] : ℚ) / (10:ℚ) ^ (0:ℕ)) := rfl
    rw [h2, show digitsToNat ['5'] = 5 from rfl, show digitsToNat [] = 0 from rfl]
    norm_num
  · rfl

/-- C9 witness: on a body whose name-bearing lines are complete sample lines,
the code and the line-oriented description agree. -/
theorem c9_witness :
    parse_metric_value (joinLines [['x', ' ', '1'], ['a', ' ', '7']]) ['a']
      = parseMetricValueLines [['x', ' ', '1'], ['a', ' ', '7']] ['a'] :=
  c9_parse_first_line_refined ['a'] [['x', ' ', '1'], ['a', ' ', '7']] (by decide) (by decide)

/-- C8: the fetcher never propagates a transport error: on a raised request
exception or a non-200 status it returns `(None, None, duration)`, and the
duration component is populated on every path, success included. -/
theorem c8_fetch_never_raises (sn fn : List Char) (o : FetchOutcome) (d : ℚ) :
    (transportFailed o = true → fetch_prober_metrics sn fn o d = (none, none, d))
    ∧ (fetch_prober_metrics sn fn o d).2.2 = d := by
  constructor
  · intro h
    cases o with
    | err => rfl
    | ok status body =>
      simp only [transportFailed] at h
      have hs : ¬(status = 200) := by simpa using h
      simp only [fetch_prober_metrics]
      rw [if_neg hs]
  · cases o with
    | err => rfl
    | ok status body =>
      simp only [fetch_prober_metrics]
      split_ifs <;> rfl

/-- C8 witness: a concrete transport error yields `(None, None, duration)`. -/
theorem c8_witness :
    fetch_prober_metrics [] [] FetchOutcome.err 3 = (none, none, 3) :=
  (c8_fetch_never_raises [] [] FetchOutcome.err 3).1 rfl
